import Mathlib

/-!
# Verification of the inverted-index engine (`src/indexer.py`)

A shallow embedding of `InvertedIndex` from `src/indexer.py`:
tokenization, postings accumulation, Elias-gamma-style encoding of
delta-coded postings, query resolution, and persistence.

Python dictionaries are modelled as insertion-ordered association lists,
Python `bytes` values produced by the codec (which are ASCII strings of
the characters `'0'`/`'1'`) as `String`, and Python exceptions as
`Option`/error results.  Dynamically typed postings values are modelled
by small sum types mirroring the runtime types that actually occur.
-/

namespace Indexer

/-- Models Python `str.lower` for the character ranges that occur in this
repository (ASCII Latin and Cyrillic); every other character is kept
unchanged, as Python does for non-cased characters. -/
def pyLowerChar (c : Char) : Char :=
  if 65 ≤ c.toNat ∧ c.toNat ≤ 90 then Char.ofNat (c.toNat + 32)
  else if c.toNat = 0x401 then Char.ofNat 0x451
  else if 0x410 ≤ c.toNat ∧ c.toNat ≤ 0x42F then Char.ofNat (c.toNat + 32)
  else c

/-- Models the whitespace class of Python `str.split()` (no argument), for
the ASCII whitespace characters. -/
def pyIsSpace (c : Char) : Bool :=
  c = ' ' || c = '\t' || c = '\n' || c = '\r' || c = '\x0b' || c = '\x0c'

/-- Models Python `str.split()` (no argument): splits on runs of
whitespace and never yields empty words.  `acc` is the reversed current
word. -/
def splitWsAux : List Char → List Char → List String
  | [], acc => if acc.isEmpty then [] else [String.mk acc.reverse]
  | c :: rest, acc =>
    if pyIsSpace c then
      if acc.isEmpty then splitWsAux rest []
      else String.mk acc.reverse :: splitWsAux rest []
    else splitWsAux rest (c :: acc)

/-- Models `InvertedIndex._tokenize`: `return text.lower().split()`. -/
def tokenize (text : String) : List String :=
  splitWsAux (text.data.map pyLowerChar) []

/-- Helper for `natBits`: structural recursion on a fuel argument so that
the kernel can evaluate it; `natBitsAux fuel n` is the binary digits of
`n` whenever `n ≤ fuel`. -/
def natBitsAux : Nat → Nat → List Char
  | _, 0 => []
  | 0, _ + 1 => []
  | fuel + 1, n + 1 =>
    natBitsAux fuel ((n + 1) / 2) ++ [if (n + 1) % 2 = 1 then '1' else '0']

/-- The binary digits of `n`, most significant first, no leading zeros
(`bin(n)` without the `'0b'` prefix; empty for `n = 0`). -/
def natBits (n : Nat) : List Char :=
  natBitsAux n n

/-- Models Python `int(s, 2)` on a string of `'0'`/`'1'` characters. -/
def bitsToNat (l : List Char) : Nat :=
  l.foldl (fun acc c => 2 * acc + (if c = '1' then 1 else 0)) 0

/-- Models `InvertedIndex._gamma_encode`: returns `b''` for `0`; otherwise the
unary length prefix (`'1' * k + '0'`) followed by the `k` mantissa bits
`bin(num)[3:]`.  The produced `bytes` are ASCII `'0'`/`'1'` strings and
are modelled as `String`. -/
def gammaEncode (num : Nat) : String :=
  if num = 0 then ""
  else
    let binary := (natBits num).drop 1
    let unary := List.replicate binary.length '1' ++ ['0']
    String.mk (unary ++ binary)

/-- Models `InvertedIndex._gamma_decode`: `0` for empty input; otherwise find the
first `'0'` at index `k` and read `'1'` plus the following `k` bits.  When
no `'0'` occurs, Python's `find` returns `-1` and the slice arithmetic
yields `int('1', 2) = 1`. -/
def gammaDecode (encoded : String) : Nat :=
  if encoded = "" then 0
  else
    match (encoded.data).findIdx? (fun c => c = '0') with
    | some k => bitsToNat ('1' :: ((encoded.data).drop (k + 1)).take k)
    | none => bitsToNat ['1']

/-- First component of a stored posting pair: a document ordinal (`int`)
before compression, or a gamma-encoded byte string after compression. -/
inductive Pdoc where
  | int (n : Nat)
  | bytes (s : String)
deriving DecidableEq, Repr

/-- Second component of a stored posting pair: a list of token positions
(compression-enabled mode before compression), a single position
(`use_compression=False` mode), or a gamma-encoded byte string (after
compression). -/
inductive Plist where
  | posList (ps : List Nat)
  | posInt (p : Nat)
  | bytes (s : String)
deriving DecidableEq, Repr

/-- One element of a term's postings list. -/
abbrev Posting := Pdoc × Plist

/-- Models `self.index`: a Python dict, modelled as an insertion-ordered
association list. -/
abbrev Index := List (String × List Posting)

/-- Python dict lookup (`d[k]` / `k in d`): the keys of a dict are unique,
so the first match is the match. -/
def dictGet {α : Type} : List (String × α) → String → Option α
  | [], _ => none
  | (k, v) :: rest, key => if k = key then some v else dictGet rest key

/-- Python `k in d`. -/
def dictContains {α : Type} (d : List (String × α)) (key : String) : Bool :=
  (dictGet d key).isSome

/-- Python `d[k] = v`: update in place if the key is present, else append
(dicts preserve insertion order). -/
def dictSet {α : Type} : List (String × α) → String → α → List (String × α)
  | [], key, v => [(key, v)]
  | (k, w) :: rest, key, v =>
    if k = key then (k, v) :: rest else (k, w) :: dictSet rest key v

/-- Models `self.index[word].append(e)` on a `defaultdict(list)`: append to the
existing list, or create the singleton list under a fresh key. -/
def dictAppendEntry : Index → String → Posting → Index
  | [], key, e => [(key, [e])]
  | (k, l) :: rest, key, e =>
    if k = key then (k, l ++ [e]) :: rest else (k, l) :: dictAppendEntry rest key e

/-- The mutable state of an `InvertedIndex` instance. -/
structure IndexState where
  index : Index
  doc_ids : List (String × Nat)
  doc_counter : Nat
  use_compression : Bool
deriving DecidableEq, Repr

/-- Models `InvertedIndex.__init__`. -/
def emptyIndex (use_compression : Bool) : IndexState :=
  { index := [], doc_ids := [], doc_counter := 0, use_compression := use_compression }

instance : Inhabited IndexState := ⟨emptyIndex true⟩

/-- The body of the `for pos, word in enumerate(words)` loop of
`add_document`, for one word.  `none` models a raised exception:
`self.index[word][-1]` on an empty list (`IndexError`) and
`positions.append` on a non-list (`AttributeError`); neither occurs on
states reachable from a fresh index. -/
def addWord (uc : Bool) (idx : Index) (ord pos : Nat) (word : String) : Option Index :=
  if uc then
    match dictGet idx word with
    | some postings =>
      match postings.getLast? with
      | none => none
      | some (lastDoc, positions) =>
        if lastDoc = Pdoc.int ord then
          match positions with
          | Plist.posList ps =>
            some (dictSet idx word
              (postings.dropLast ++ [(lastDoc, Plist.posList (ps ++ [pos]))]))
          | _ => none
        else some (dictAppendEntry idx word (Pdoc.int ord, Plist.posList [pos]))
    | none => some (dictAppendEntry idx word (Pdoc.int ord, Plist.posList [pos]))
  else some (dictAppendEntry idx word (Pdoc.int ord, Plist.posInt pos))

/-- The enumerate loop of `add_document` over the token list, with `pos`
the running position. -/
def addWords (uc : Bool) (idx : Index) (ord : Nat) : Nat → List String → Option Index
  | _, [] => some idx
  | pos, w :: ws =>
    match addWord uc idx ord pos w with
    | none => none
    | some idx' => addWords uc idx' ord (pos + 1) ws

/-- Models `InvertedIndex.add_document`: the ordinal handed to the word loop is
the pre-increment value of `doc_counter`. -/
def add_document (st : IndexState) (doc_id text : String) : Option IndexState :=
  if dictContains st.doc_ids doc_id then some st
  else
    match addWords st.use_compression st.index st.doc_counter 0 (tokenize text) with
    | none => none
    | some idx' =>
      some { index := idx', doc_ids := dictSet st.doc_ids doc_id st.doc_counter,
             doc_counter := st.doc_counter + 1, use_compression := st.use_compression }

/-- A sequence of `add_document` calls (the ingestion loop of
`Indexer.process` and of the tests). -/
def ingestAll : IndexState → List (String × String) → Option IndexState
  | st, [] => some st
  | st, (d, t) :: rest =>
    match add_document st d t with
    | none => none
    | some st' => ingestAll st' rest

/-- Ingest a corpus into a fresh index. -/
def buildIndex (uc : Bool) (corpus : List (String × String)) : Option IndexState :=
  ingestAll (emptyIndex uc) corpus

/-- The sort key `lambda x: x[0]` is meaningful in Python only when the
first components are `int`s. -/
def pdKey : Pdoc → Option Nat
  | Pdoc.int n => some n
  | Pdoc.bytes _ => none

/-- Stable insertion preserving the relative order of equal keys, like
Python's stable `list.sort`. -/
def insortPosting (x : Posting) : List Posting → List Posting
  | [] => [x]
  | y :: ys =>
    if (pdKey x.1).getD 0 ≤ (pdKey y.1).getD 0 then x :: y :: ys
    else y :: insortPosting x ys

def sortPostingsList : List Posting → List Posting
  | [] => []
  | x :: xs => insortPosting x (sortPostingsList xs)

/-- Models `postings.sort(key=lambda x: x[0])`.  A list of length at most one
performs no comparison; otherwise comparing an `int` key with a `bytes`
key raises `TypeError` (`none`).  An all-`bytes` list of length two or
more would sort, but the subsequent subtraction raises anyway, so the
overall `compress_index` result is the same. -/
def sortPostings (postings : List Posting) : Option (List Posting) :=
  if postings.length ≤ 1 then some postings
  else if postings.all (fun p => (pdKey p.1).isSome) then
    some (sortPostingsList postings)
  else none

def insortNat (x : Nat) : List Nat → List Nat
  | [] => [x]
  | y :: ys => if x ≤ y then x :: y :: ys else y :: insortNat x ys

/-- Models `positions.sort()` on a list of non-negative ints. -/
def sortNatList : List Nat → List Nat
  | [] => []
  | x :: xs => insortNat x (sortNatList xs)

/-- The position delta-encoding loop: `delta_pos = pos - prev_pos`, gamma
encode, `b''.join`. -/
def deltaEncodePositions : List Nat → Nat → String
  | [], _ => ""
  | p :: rest, prev => gammaEncode (p - prev) ++ deltaEncodePositions rest p

/-- The `if len(positions) > 1` branch of `compress_index` for one
posting's positions value.  `none` models the exceptions Python raises on
runtime types that never occur in reachable states: `len` of an `int`
(`TypeError`), `.sort()` on `bytes` (`AttributeError`), and
`positions[0]` on an empty sequence (`IndexError`); `bytes` of length one
is subscriptable and yields its byte value. -/
def compressPositions : Plist → Option String
  | Plist.posList ps =>
    if ps.length > 1 then some (deltaEncodePositions (sortNatList ps) 0)
    else
      match ps with
      | [] => none
      | p :: _ => some (gammaEncode p)
  | Plist.posInt _ => none
  | Plist.bytes s =>
    if s.length > 1 then none
    else
      match s.data with
      | [] => none
      | c :: _ => some (gammaEncode c.toNat)

/-- The per-posting loop of `compress_index`: delta-code the document ids
(`delta_doc = doc_id - prev_doc_id`) and gamma-encode everything. -/
def compressPostingsLoop : List Posting → Nat → Option (List Posting)
  | [], _ => some []
  | (pd, pl) :: rest, prev =>
    match pdKey pd with
    | none => none
    | some d =>
      match compressPositions pl with
      | none => none
      | some blob =>
        match compressPostingsLoop rest d with
        | none => none
        | some tail =>
          some ((Pdoc.bytes (gammaEncode (d - prev)), Plist.bytes blob) :: tail)

/-- One term's postings: sort, then delta/gamma encode. -/
def compressPostings (postings : List Posting) : Option (List Posting) :=
  match sortPostings postings with
  | none => none
  | some sorted => compressPostingsLoop sorted 0

/-- The `for term, postings in self.index.items()` loop building
`compressed_index`, in dict iteration order. -/
def compressIndexEntries : Index → Option Index
  | [] => some []
  | (term, postings) :: rest =>
    match compressPostings postings with
    | none => none
    | some cp =>
      match compressIndexEntries rest with
      | none => none
      | some tail => some ((term, cp) :: tail)

/-- Models `InvertedIndex.compress_index`: a no-op when `use_compression` is
false, otherwise replaces the whole postings table. -/
def compress_index (st : IndexState) : Option IndexState :=
  if st.use_compression then
    match compressIndexEntries st.index with
    | none => none
    | some newIdx => some { st with index := newIdx }
  else some st

/-- Models `self._gamma_decode(encoded_doc)` where `encoded_doc` is whatever is
stored: `if not encoded: return 0` accepts the int `0`; a non-zero `int`
has no `.decode` and raises `AttributeError` (`none`). -/
def decodeDocVal : Pdoc → Option Nat
  | Pdoc.int 0 => some 0
  | Pdoc.int (_ + 1) => none
  | Pdoc.bytes s => some (gammaDecode s)

/-- Helper for `decodePosStream` with a fuel argument (the stream length
suffices) so the kernel can evaluate it. -/
def decodePosStreamAux : Nat → List Char → Nat → List Nat
  | _, [], _ => []
  | 0, _ :: _, _ => []
  | fuel + 1, c :: rest, prev =>
    match (c :: rest).findIdx? (fun x => x = '0') with
    | none => []
    | some k =>
      let delta := bitsToNat ('1' :: (((c :: rest).drop (k + 1)).take k))
      let pos := prev + delta
      pos :: decodePosStreamAux fuel ((c :: rest).drop (k + 1 + k)) pos

/-- The `while pos_start < len(pos_stream)` loop of `search` that decodes
a concatenated gamma stream of position deltas; a missing terminator ends
the stream silently. -/
def decodePosStream (s : List Char) (prev : Nat) : List Nat :=
  decodePosStreamAux s.length s prev

/-- Models the `isinstance(encoded_positions, bytes)` guard of the decompression
loop: decode a byte stream, any other runtime type yields `[]`. -/
def decodePositionsVal : Plist → List Nat
  | Plist.bytes s => decodePosStream s.data 0
  | Plist.posList _ => []
  | Plist.posInt _ => []

/-- The decompression loop of `search` for one term: prefix-sum the
decoded document deltas (`doc_id = prev_doc_id + delta_doc`). -/
def decompressPostings : List Posting → Nat → Option (List Posting)
  | [], _ => some []
  | (ed, ep) :: rest, prev =>
    match decodeDocVal ed with
    | none => none
    | some delta =>
      match decompressPostings rest (prev + delta) with
      | none => none
      | some tail =>
        some ((Pdoc.int (prev + delta), Plist.posList (decodePositionsVal ep)) :: tail)

/-- Models `InvertedIndex._get_doc_ids`. -/
def getDocIds (postings : List Posting) : List Pdoc :=
  postings.map Prod.fst

/-- The first loop of `search`: build `postings_lists`.  Outer `none` is a
raised exception; inner `none` is the early `return []` on a term absent
from the index. -/
def gatherPostings (st : IndexState) : List String → Option (Option (List (List Posting)))
  | [] => some (some [])
  | t :: rest =>
    match dictGet st.index t with
    | none => some none
    | some postings =>
      if st.use_compression then
        match decompressPostings postings 0 with
        | none => none
        | some dec =>
          match gatherPostings st rest with
          | none => none
          | some none => some none
          | some (some ls) => some (some (dec :: ls))
      else
        match gatherPostings st rest with
        | none => none
        | some none => some none
        | some (some ls) => some (some (postings :: ls))

/-- The intersection loop of `search`: `result.intersection_update(...)`
with early `break` on empty.  Sets are used only through membership, so a
membership-preserving list intersection is a faithful model. -/
def interFold (acc : List Pdoc) : List (List Posting) → List Pdoc
  | [] => acc
  | l :: ls =>
    let acc' := acc.filter (fun x => decide (x ∈ getDocIds l))
    if acc'.isEmpty then acc' else interFold acc' ls

/-- Models `InvertedIndex.search`.  The final comprehension maps surviving
ordinals back to external ids in `doc_ids` insertion order; `idx in
result` is Python `==`-membership, false between an `int` and `bytes`. -/
def search (st : IndexState) (query : String) : Option (List String) :=
  let terms := tokenize query
  if terms.isEmpty then some []
  else
    match gatherPostings st terms with
    | none => none
    | some none => some []
    | some (some []) => some []
    | some (some (first :: rest)) =>
      let result := interFold (getDocIds first) rest
      some ((st.doc_ids.filter (fun pr => decide (Pdoc.int pr.2 ∈ result))).map Prod.fst)

/-- A successfully unpickled persisted record: a dict whose expected keys
may individually be absent. -/
structure SavedData where
  indexVal : Option Index
  docIdsVal : Option (List (String × Nat))
  docCounterVal : Option Nat
  useCompressionVal : Option Bool
deriving DecidableEq

/-- The persisted blob as `pickle.load` sees it: either it unpickles to a
record, or unpickling itself fails (malformed/truncated stream). -/
inductive Blob where
  | ok (data : SavedData)
  | bad
deriving DecidableEq

/-- The errors `load_from_file` can surface: an unpickling failure, or a
`KeyError` for a missing dict key. -/
inductive LoadErr where
  | badPickle
  | missingKey (k : String)
deriving DecidableEq, Repr

/-- Models `InvertedIndex.save_to_file`: serialize the four fields as one record. -/
def save_to_file (st : IndexState) : Blob :=
  Blob.ok
    { indexVal := some st.index, docIdsVal := some st.doc_ids,
      docCounterVal := some st.doc_counter, useCompressionVal := some st.use_compression }

/-- Models `InvertedIndex.load_from_file`: `pickle.load` then four sequential
field assignments.  The returned state is the object's state when the
call returns or when the exception propagates: an unpickling failure
happens before any assignment, but a `KeyError` on a later key leaves the
earlier assignments in place. -/
def load_from_file (st : IndexState) (b : Blob) : IndexState × Option LoadErr :=
  match b with
  | Blob.bad => (st, some LoadErr.badPickle)
  | Blob.ok data =>
    match data.indexVal with
    | none => (st, some (LoadErr.missingKey "index"))
    | some i =>
      let st1 := { st with index := i }
      match data.docIdsVal with
      | none => (st1, some (LoadErr.missingKey "doc_ids"))
      | some dd =>
        let st2 := { st1 with doc_ids := dd }
        match data.docCounterVal with
        | none => (st2, some (LoadErr.missingKey "doc_counter"))
        | some c =>
          let st3 := { st2 with doc_counter := c }
          match data.useCompressionVal with
          | none => (st3, some (LoadErr.missingKey "use_compression"))
          | some u => ({ st3 with use_compression := u }, none)

/-- The positions at which `w` occurs in the token list `ws`, starting at
position `i`, as uncompressed-mode postings entries for ordinal `ord`
(specification-side helper used to state what the accumulator stores). -/
def occEntriesFrom (ord : Nat) : Nat → List String → String → List Posting
  | _, [], _ => []
  | i, w0 :: rest, w =>
    if w0 = w then (Pdoc.int ord, Plist.posInt i) :: occEntriesFrom ord (i + 1) rest w
    else occEntriesFrom ord (i + 1) rest w

/-- Concrete state: one document ingested into a fresh compression-mode
index (used to instantiate theorems). -/
def c9State1 : IndexState :=
  (add_document (emptyIndex true) "a" "t").getD (emptyIndex true)

/-- Concrete state: a two-document corpus ingested into a fresh
compression-mode index. -/
def twoDocState : IndexState :=
  (buildIndex true [("a", "t"), ("b", "u")]).getD (emptyIndex true)

/-- Concrete corpus state for exercising `search` before `compress_index`
in compression mode: two documents sharing the term `"x"`. -/
def sharedTermState : Option IndexState :=
  buildIndex true [("a", "x"), ("b", "x")]

/-- Concrete uncompressed-mode state with two documents. -/
def uncompressedState : IndexState :=
  (buildIndex false [("a", "x"), ("b", "x y")]).getD (emptyIndex false)

/-- Concrete uncompressed-mode state with one document containing a
repeated term. -/
def repeatedTermState : IndexState :=
  (add_document (emptyIndex false) "a" "x y x").getD (emptyIndex false)

/-- Concrete compression-mode state with one document, used as the prior
ingestion for the empty-tokenization claim. -/
def oneDocState : IndexState :=
  (buildIndex true [("a", "x")]).getD (emptyIndex true)

/-- Every posting stored in the table is a raw (uncompressed) entry whose
document ordinal is strictly below `c`.  This is the state invariant that
ingestion from a fresh index maintains with `c` the ordinal counter. -/
def RawBelow (idx : Index) (c : Nat) : Prop :=
  ∀ tps ∈ idx, ∀ p ∈ tps.2, ∃ o, p.1 = Pdoc.int o ∧ o < c

theorem natBitsAux_eq_natBits (n : Nat) : ∀ fuel, n ≤ fuel → natBitsAux fuel n = natBits n := by
  induction n using Nat.strong_induction_on with
  | _ n ih =>
    intro fuel hn
    match n, fuel with
    | 0, 0 => rfl
    | 0, f + 1 => rfl
    | m + 1, f + 1 =>
      have hdiv : (m + 1) / 2 ≤ m :=
        Nat.le_of_lt_succ (Nat.div_lt_self (Nat.succ_pos m) (by decide : 1 < 2))
      have hlt : (m + 1) / 2 < m + 1 := Nat.lt_succ_of_le hdiv
      have h1 : natBitsAux f ((m + 1) / 2) = natBits ((m + 1) / 2) :=
        ih _ hlt f (Nat.le_trans hdiv (Nat.le_of_succ_le_succ hn))
      have h2 : natBitsAux m ((m + 1) / 2) = natBits ((m + 1) / 2) :=
        ih _ hlt m hdiv
      show natBitsAux f ((m + 1) / 2) ++ _ = natBits (m + 1)
      rw [h1]
      show _ = natBitsAux m ((m + 1) / 2) ++ _
      rw [h2]

/-- The defining recurrence of `natBits` on positive input. -/
theorem natBits_succ (n : Nat) :
    natBits (n + 1) = natBits ((n + 1) / 2) ++ [if (n + 1) % 2 = 1 then '1' else '0'] := by
  show natBitsAux (n + 1) (n + 1) = _
  have h2 : (n + 1) / 2 ≤ n := by
    have := Nat.div_lt_self (Nat.succ_pos n) (by decide : 1 < 2)
    omega
  show natBitsAux n ((n + 1) / 2) ++ _ = _
  rw [natBitsAux_eq_natBits ((n + 1) / 2) n h2]

theorem bitsToNat_go (l : List Char) (acc : Nat) :
    l.foldl (fun a c => 2 * a + (if c = '1' then 1 else 0)) acc
      = acc * 2 ^ l.length + bitsToNat l := by
  induction l generalizing acc with
  | nil => simp [bitsToNat]
  | cons c l ih =>
    show List.foldl _ (2 * acc + _) l = _
    rw [ih]
    show _ = acc * 2 ^ (l.length + 1) + bitsToNat (c :: l)
    have : bitsToNat (c :: l)
        = l.foldl (fun a c => 2 * a + (if c = '1' then 1 else 0))
            (2 * 0 + (if c = '1' then 1 else 0)) := rfl
    rw [this, ih]
    ring

theorem bitsToNat_cons (c : Char) (l : List Char) :
    bitsToNat (c :: l) = (if c = '1' then 1 else 0) * 2 ^ l.length + bitsToNat l := by
  have : bitsToNat (c :: l)
      = l.foldl (fun a c => 2 * a + (if c = '1' then 1 else 0))
          (2 * 0 + (if c = '1' then 1 else 0)) := rfl
  rw [this, bitsToNat_go]
  ring_nf

theorem bitsToNat_append_bit (l : List Char) (c : Char) :
    bitsToNat (l ++ [c]) = 2 * bitsToNat l + (if c = '1' then 1 else 0) := by
  show List.foldl _ 0 (l ++ [c]) = _
  rw [List.foldl_append]
  rfl

theorem bitsToNat_lt (l : List Char) : bitsToNat l < 2 ^ l.length := by
  induction l with
  | nil => simp [bitsToNat]
  | cons c l ih =>
    rw [bitsToNat_cons]
    have hb : (if c = '1' then 1 else 0) ≤ 1 := by split <;> simp
    calc (if c = '1' then 1 else 0) * 2 ^ l.length + bitsToNat l
        ≤ 1 * 2 ^ l.length + bitsToNat l := by
          exact Nat.add_le_add_right (Nat.mul_le_mul_right _ hb) _
      _ < 2 ^ l.length + 2 ^ l.length := by omega
      _ = 2 ^ (c :: l).length := by
          show 2 ^ l.length + 2 ^ l.length = 2 ^ (l.length + 1)
          ring

/-- Reading back the binary digits of `n` yields `n`. -/
theorem bitsToNat_natBits (n : Nat) : bitsToNat (natBits n) = n := by
  induction n using Nat.strong_induction_on with
  | _ n ih =>
    match n with
    | 0 => rfl
    | m + 1 =>
      rw [natBits_succ, bitsToNat_append_bit,
        ih ((m + 1) / 2) (Nat.div_lt_self (Nat.succ_pos m) (by decide))]
      have : (if (if (m + 1) % 2 = 1 then '1' else '0') = '1' then 1 else 0)
          = (m + 1) % 2 := by
        rcases Nat.mod_two_eq_zero_or_one (m + 1) with h | h <;> rw [h] <;> rfl
      rw [this]
      omega

/-- The binary digits of a positive number start with `'1'`. -/
theorem natBits_head (n : Nat) (h : 1 ≤ n) : ∃ l, natBits n = '1' :: l := by
  induction n using Nat.strong_induction_on with
  | _ n ih =>
    match n, h with
    | 1, _ => exact ⟨[], rfl⟩
    | m + 2, _ =>
      rw [natBits_succ]
      have hdiv1 : 1 ≤ (m + 2) / 2 := by omega
      have hdivlt : (m + 2) / 2 < m + 2 := Nat.div_lt_self (by omega) (by decide)
      obtain ⟨l, hl⟩ := ih _ hdivlt hdiv1
      exact ⟨l ++ [if (m + 2) % 2 = 1 then '1' else '0'], by rw [hl]; rfl⟩

/-- The list `natBits n` has `⌊log₂ n⌋ + 1` digits for `n ≥ 1`. -/
theorem natBits_length (n : Nat) (h : 1 ≤ n) : (natBits n).length = Nat.log2 n + 1 := by
  induction n using Nat.strong_induction_on with
  | _ n ih =>
    match n, h with
    | 1, _ =>
      show (['1'] : List Char).length = Nat.log2 1 + 1
      rw [Nat.log2]
      simp
    | m + 2, _ =>
      rw [natBits_succ, List.length_append, List.length_singleton]
      have hdiv1 : 1 ≤ (m + 2) / 2 := by omega
      have hdivlt : (m + 2) / 2 < m + 2 := Nat.div_lt_self (by omega) (by decide)
      rw [ih _ hdivlt hdiv1]
      have hlog : Nat.log2 (m + 2) = Nat.log2 ((m + 2) / 2) + 1 := by
        rw [Nat.log2]
        simp [show m + 2 ≥ 2 by omega]
      omega

/-- For `n ≥ 1` the encoder output is the unary prefix, the terminator
and the mantissa, spelled out. -/
theorem gammaEncode_eq (n : Nat) (h : 1 ≤ n) :
    gammaEncode n
      = String.mk (List.replicate ((natBits n).drop 1).length '1'
          ++ '0' :: (natBits n).drop 1) := by
  rw [gammaEncode, if_neg (by omega : ¬n = 0)]
  simp

theorem findIdx?_ones_zero_go (rest : List Char) :
    ∀ k i, (List.replicate k '1' ++ '0' :: rest).findIdx? (fun c => c = '0') i
      = some (i + k) := by
  intro k
  induction k with
  | zero =>
    intro i
    show (if decide ('0' = '0') = true then some i
      else rest.findIdx? (fun c => c = '0') (i + 1)) = some (i + 0)
    rw [if_pos (by decide), Nat.add_zero]
  | succ j ih =>
    intro i
    show (if decide ('1' = '0') = true then some i
      else (List.replicate j '1' ++ '0' :: rest).findIdx? (fun c => c = '0') (i + 1))
      = some (i + (j + 1))
    rw [if_neg (by decide), ih]
    congr 1
    omega

theorem findIdx?_ones_zero (k : Nat) (rest : List Char) :
    (List.replicate k '1' ++ '0' :: rest).findIdx? (fun c => c = '0') = some k := by
  rw [show (List.replicate k '1' ++ '0' :: rest).findIdx? (fun c => c = '0')
      = (List.replicate k '1' ++ '0' :: rest).findIdx? (fun c => c = '0') 0 from rfl,
    findIdx?_ones_zero_go]
  rw [Nat.zero_add]

/-- The decoder `_gamma_decode` inverts `_gamma_encode` on every `n ≥ 1`. -/
theorem gammaDecode_gammaEncode (n : Nat) (h : 1 ≤ n) :
    gammaDecode (gammaEncode n) = n := by
  obtain ⟨m, hm⟩ := natBits_head n h
  have hdrop : (natBits n).drop 1 = m := by rw [hm]; rfl
  rw [gammaEncode_eq n h, hdrop]
  have hdata : (String.mk (List.replicate m.length '1' ++ '0' :: m)).data
      = List.replicate m.length '1' ++ '0' :: m := rfl
  have hne : ¬(String.mk (List.replicate m.length '1' ++ '0' :: m) = "") := by
    intro heq
    have : (List.replicate m.length '1' ++ '0' :: m) = ([] : List Char) := by
      have := congrArg String.data heq
      simp at this
    simp at this
  rw [gammaDecode, if_neg hne, hdata, findIdx?_ones_zero]
  have hassoc : List.replicate m.length '1' ++ '0' :: m
      = (List.replicate m.length '1' ++ ['0']) ++ m := by simp
  have hlen : (List.replicate m.length '1' ++ ['0']).length = m.length + 1 := by simp
  show bitsToNat ('1' ::
    ((List.replicate m.length '1' ++ '0' :: m).drop (m.length + 1)).take m.length) = n
  rw [hassoc, List.drop_left' hlen, List.take_length, ← hm, bitsToNat_natBits]

theorem dictContains_dictSet_self {α : Type} (m : List (String × α)) (k : String) (v : α) :
    dictContains (dictSet m k v) k = true := by
  induction m with
  | nil => simp [dictSet, dictContains, dictGet]
  | cons p rest ih =>
    obtain ⟨k0, w⟩ := p
    by_cases hk : k0 = k
    · simp [dictSet, hk, dictContains, dictGet]
    · simp only [dictSet, if_neg hk]
      simpa [dictContains, dictGet, hk] using ih

theorem dictSet_of_not_contains {α : Type} (m : List (String × α)) (k : String) (v : α)
    (h : dictContains m k = false) : dictSet m k v = m ++ [(k, v)] := by
  induction m with
  | nil => rfl
  | cons p rest ih =>
    obtain ⟨k0, w⟩ := p
    have hk : ¬(k0 = k) := by
      intro hc
      simp [dictContains, dictGet, hc] at h
    have hrest : dictContains rest k = false := by
      simpa [dictContains, dictGet, hk] using h
    simp [dictSet, hk, ih hrest]

theorem not_mem_of_dictContains_false {α : Type} (m : List (String × α)) (k : String)
    (h : dictContains m k = false) : ∀ v, (k, v) ∉ m := by
  induction m with
  | nil => simp
  | cons p rest ih =>
    obtain ⟨k0, w⟩ := p
    have hk : ¬(k0 = k) := by
      intro hc
      simp [dictContains, dictGet, hc] at h
    have hrest : dictContains rest k = false := by
      simpa [dictContains, dictGet, hk] using h
    intro v hv
    rcases List.mem_cons.mp hv with heq | hmem
    · exact hk (congrArg Prod.fst heq).symm
    · exact ih hrest v hmem

theorem dictGet_mem {α : Type} (m : List (String × α)) (k : String) (v : α)
    (h : dictGet m k = some v) : (k, v) ∈ m := by
  induction m with
  | nil => simp [dictGet] at h
  | cons p rest ih =>
    obtain ⟨k0, w⟩ := p
    by_cases hk : k0 = k
    · rw [dictGet, if_pos hk] at h
      subst hk
      exact List.mem_cons.mpr (Or.inl (by injection h with h; rw [h]))
    · rw [dictGet, if_neg hk] at h
      exact List.mem_cons.mpr (Or.inr (ih h))

/-- C9: ingestion is idempotent per document id: whatever the second text,
the second call is a no-op returning exactly the state after the first. -/
theorem add_document_idempotent (st : IndexState) (d t1 t2 : String) (st1 : IndexState)
    (h : add_document st d t1 = some st1) : add_document st1 d t2 = some st1 := by
  rw [add_document] at h
  by_cases hc : dictContains st.doc_ids d = true
  · rw [if_pos hc] at h
    have hst : st = st1 := by injection h
    subst hst
    rw [add_document, if_pos hc]
  · rw [if_neg hc] at h
    cases haw : addWords st.use_compression st.index st.doc_counter 0 (tokenize t1) with
    | none =>
      rw [haw] at h
      cases h
    | some idx' =>
      rw [haw] at h
      injection h with h
      subst h
      simp [add_document, dictContains_dictSet_self]

/-- Witness for C9 at a concrete state. -/
theorem add_document_idempotent_witness :
    add_document c9State1 "a" "u" = some c9State1 :=
  add_document_idempotent (emptyIndex true) "a" "t" "u" c9State1 (by rfl)

theorem ingestAll_ordinals (corpus : List (String × String)) :
    ∀ st st', st.doc_ids.map Prod.snd = List.range st.doc_counter →
      ingestAll st corpus = some st' →
      st'.doc_ids.map Prod.snd = List.range st'.doc_counter := by
  induction corpus with
  | nil =>
    intro st st' hinv h
    injection h with h
    rwa [← h]
  | cons p rest ih =>
    obtain ⟨d, t⟩ := p
    intro st st' hinv h
    rw [ingestAll] at h
    cases hadd : add_document st d t with
    | none => rw [hadd] at h; cases h
    | some st1 =>
      rw [hadd] at h
      refine ih st1 st' ?_ h
      rw [add_document] at hadd
      by_cases hc : dictContains st.doc_ids d = true
      · rw [if_pos hc] at hadd
        injection hadd with hadd
        rwa [← hadd]
      · rw [if_neg hc] at hadd
        cases haw : addWords st.use_compression st.index st.doc_counter 0 (tokenize t) with
        | none => rw [haw] at hadd; cases hadd
        | some idx' =>
          rw [haw] at hadd
          injection hadd with hadd
          rw [← hadd]
          show (dictSet st.doc_ids d st.doc_counter).map Prod.snd
            = List.range (st.doc_counter + 1)
          rw [dictSet_of_not_contains st.doc_ids d st.doc_counter (by simpa using hc),
            List.map_append, hinv, List.range_succ]
          rfl

/-- C5 (amended): on any index built by ingestion from fresh, the stored
ordinals are exactly `0, 1, 2, …` in ingestion order: the first document
receives ordinal 0 (not 1) and each subsequent new document the next
integer, so ordinals are unique and strictly increasing. -/
theorem buildIndex_ordinals_dense (uc : Bool) (corpus : List (String × String))
    (st : IndexState) (h : buildIndex uc corpus = some st) :
    st.doc_ids.map Prod.snd = List.range st.doc_counter :=
  ingestAll_ordinals corpus (emptyIndex uc) st (by rfl) h

/-- Witness for the amended C5 at a concrete corpus. -/
theorem buildIndex_ordinals_dense_witness :
    twoDocState.doc_ids.map Prod.snd = List.range twoDocState.doc_counter :=
  buildIndex_ordinals_dense true [("a", "t"), ("b", "u")] twoDocState (by rfl)

/-- C5 counterexample: the first ingested document receives ordinal 0, not
1 as the claim states (so stored ordinals are not all `≥ 1`). -/
theorem firstOrdinal_is_zero :
    (buildIndex true [("a", "t")]).map (fun s => s.doc_ids) = some [("a", 0)] := by rfl

/-- C2: the gamma decoder inverts the gamma encoder on every `n ≥ 1`. -/
theorem gamma_roundtrip (n : Nat) (h : 1 ≤ n) : gammaDecode (gammaEncode n) = n :=
  gammaDecode_gammaEncode n h

/-- Witness for C2 at `n = 5`. -/
theorem gamma_roundtrip_witness : gammaDecode (gammaEncode 5) = 5 :=
  gamma_roundtrip 5 (by decide)

/-- C3 counterexample: at `n = 2` (`k = 1`) the claim predicts the bit
pattern `"010"` (`k` zero-bits, a one terminator, the mantissa), but the
encoder emits `"100"`: the unary prefix uses one-bits and the terminator
is a zero-bit. -/
theorem gammaEncode_two_not_claimed :
    gammaEncode 2 = "100" ∧ gammaEncode 2 ≠ "010" := by
  exact ⟨rfl, by decide⟩

/-- C3 (amended): for `n ≥ 1` with `k = ⌊log₂ n⌋`, the encoding is `k`
one-bits, one terminator zero-bit, then the `k` mantissa bits (the binary
digits of `n` with the leading 1 removed, whose value is `n mod 2^k`),
for a total length of `2k + 1` symbols. -/
theorem gammaEncode_shape (n : Nat) (h : 1 ≤ n) :
    gammaEncode n
        = String.mk (List.replicate (Nat.log2 n) '1' ++ '0' :: (natBits n).drop 1)
      ∧ (gammaEncode n).length = 2 * Nat.log2 n + 1
      ∧ bitsToNat ((natBits n).drop 1) = n % 2 ^ Nat.log2 n := by
  have hlen : ((natBits n).drop 1).length = Nat.log2 n := by
    rw [List.length_drop, natBits_length n h]
    omega
  obtain ⟨m, hm⟩ := natBits_head n h
  have hmlen : m.length = Nat.log2 n := by
    have := hlen
    rw [hm] at this
    simpa using this
  have hmant : bitsToNat ((natBits n).drop 1) = n % 2 ^ Nat.log2 n := by
    have hsplit : bitsToNat (natBits n) = 2 ^ m.length + bitsToNat m := by
      rw [hm, bitsToNat_cons, if_pos rfl, one_mul]
    have hval : n = 2 ^ m.length + bitsToNat m := by
      rw [← hsplit, bitsToNat_natBits]
    have hlt : bitsToNat m < 2 ^ m.length := bitsToNat_lt m
    have hdropm : (natBits n).drop 1 = m := by rw [hm]; rfl
    rw [hdropm, ← hmlen, hval, Nat.add_mod_left, Nat.mod_eq_of_lt hlt]
  refine ⟨?_, ?_, hmant⟩
  · rw [gammaEncode_eq n h, hlen]
  · rw [gammaEncode_eq n h]
    show (List.replicate ((natBits n).drop 1).length '1'
      ++ '0' :: (natBits n).drop 1).length = 2 * Nat.log2 n + 1
    rw [List.length_append, List.length_replicate, List.length_cons, hlen]
    omega

/-- Witness for the amended C3 at `n = 5`. -/
theorem gammaEncode_shape_witness :
    gammaEncode 5
        = String.mk (List.replicate (Nat.log2 5) '1' ++ '0' :: (natBits 5).drop 1)
      ∧ (gammaEncode 5).length = 2 * Nat.log2 5 + 1
      ∧ bitsToNat ((natBits 5).drop 1) = 5 % 2 ^ Nat.log2 5 :=
  gammaEncode_shape 5 (by decide)

/-- C4 counterexample: `_gamma_encode(0)` does not raise: the code's first
line is `if num == 0: return b''`, so it returns the empty byte string. -/
theorem gammaEncode_zero_returns :
    gammaEncode 0 = "" := by rfl

/-- C4 (amended): encoding 0 is not an error; it returns the empty byte
string, and the empty string is returned for no positive input. -/
theorem gammaEncode_zero_empty :
    gammaEncode 0 = "" ∧ ∀ n, 1 ≤ n → gammaEncode n ≠ "" := by
  refine ⟨rfl, ?_⟩
  intro n hn heq
  obtain ⟨hshape, hlen, _⟩ := gammaEncode_shape n hn
  rw [heq] at hlen
  simp at hlen

/-- Witness for the amended C4 at `n = 3`. -/
theorem gammaEncode_zero_empty_witness :
    gammaEncode 0 = "" ∧ gammaEncode 3 ≠ "" :=
  ⟨gammaEncode_zero_empty.1, gammaEncode_zero_empty.2 3 (by decide)⟩

/-- C1 counterexample: with `use_compression=True`, on a fresh index
holding documents `a` and `b` both containing term `x`, `search("x")`
raises before `compress_index` is called (gamma-decoding is applied to
the raw integer ordinal 1, which has no `.decode`), while after
`compress_index` it returns `{a, b}`; so the result sets are not
identical before and after compression. -/
theorem search_before_after_compress_differ :
    (sharedTermState.bind fun s => search s "x") = none
      ∧ ((sharedTermState.bind compress_index).bind fun s => search s "x")
        = some ["a", "b"] :=
  ⟨rfl, rfl⟩

/-- C1 (amended): when `use_compression` is false, `compress_index` is a
no-op, so `search` trivially returns identical results before and after
it; the claimed equivalence holds in that mode only. -/
theorem search_compress_eq_uncompressed (st : IndexState) (q : String)
    (h : st.use_compression = false) :
    ∃ st', compress_index st = some st' ∧ search st' q = search st q := by
  refine ⟨st, ?_, rfl⟩
  rw [compress_index, h]
  rfl

/-- Witness for the amended C1 at a concrete uncompressed index. -/
theorem search_compress_eq_uncompressed_witness :
    ∃ st', compress_index uncompressedState = some st'
      ∧ search st' "x" = search uncompressedState "x" :=
  search_compress_eq_uncompressed uncompressedState "x" (by rfl)

/-- C6: the tokenizer does case-fold, contradicting the claim and the
repository's own `test_tokenize` (in `src/test.py`), which expects the
casing of the input to be preserved on exactly this input. -/
theorem tokenize_case_folds :
    tokenize "Ректор СПбГУ объявил о новых правилах"
        = ["ректор", "спбгу", "объявил", "о", "новых", "правилах"]
      ∧ tokenize "Ректор СПбГУ объявил о новых правилах"
        ≠ ["Ректор", "СПбГУ", "объявил", "о", "новых", "правилах"] :=
  ⟨rfl, by decide⟩

/-- C8 counterexample: a blob that unpickles to a dict holding only the
`index` key raises a `KeyError` for `doc_ids` *after* `self.index` has
already been overwritten: the error is surfaced, but the index state is
changed (partially updated), contradicting the claim. -/
theorem load_partial_update :
    (load_from_file uncompressedState
        (Blob.ok ⟨some [], none, none, none⟩)).2 = some (LoadErr.missingKey "doc_ids")
      ∧ (load_from_file uncompressedState
        (Blob.ok ⟨some [], none, none, none⟩)).1 ≠ uncompressedState :=
  ⟨rfl, by decide⟩

/-- C8 (amended): loading a record saved by `save_to_file` fully replaces
the in-memory state with the persisted one, and a blob whose unpickling
itself fails surfaces a distinct error with the state untouched; only a
blob that unpickles but lacks one of the expected keys can leave the
state partially updated. -/
theorem load_replaces_state (st stOld : IndexState) :
    load_from_file stOld (save_to_file st) = (st, none)
      ∧ load_from_file stOld Blob.bad = (stOld, some LoadErr.badPickle) :=
  ⟨rfl, rfl⟩

/-- C7 counterexample: postings are not membership-only: ingesting `"x x"`
and ingesting `"x"` produce different postings tables although the token
*sets* coincide — in uncompressed mode the table keeps one
`(ordinal, position)` pair per occurrence. -/
theorem postings_not_membership_only :
    buildIndex false [("a", "x x")] ≠ buildIndex false [("a", "x")]
      ∧ (buildIndex false [("a", "x x")]).map (fun s => s.index)
        = some [("x", [(Pdoc.int 0, Plist.posInt 0), (Pdoc.int 0, Plist.posInt 1)])] :=
  ⟨by decide, rfl⟩

theorem dictGet_dictAppendEntry (idx : Index) (key : String) (e : Posting) (w : String) :
    dictGet (dictAppendEntry idx key e) w
      = if key = w then some (((dictGet idx key).getD []) ++ [e]) else dictGet idx w := by
  induction idx with
  | nil =>
    by_cases hk : key = w <;> simp [dictAppendEntry, dictGet, hk]
  | cons p rest ih =>
    obtain ⟨k, l⟩ := p
    by_cases hk : k = key
    · subst hk
      by_cases hw : k = w
      · subst hw
        simp [dictAppendEntry, dictGet]
      · have hwk : ¬(w = k) := fun hh => hw hh.symm
        simp [dictAppendEntry, dictGet, hw]
    · by_cases hw : k = w
      · subst hw
        have hkw : ¬(key = k) := fun h => hk h.symm
        simp [dictAppendEntry, dictGet, hk, hkw]
      · simp [dictAppendEntry, dictGet, hk, hw, ih]

theorem addWords_false_get (ws : List String) :
    ∀ (i : Nat) (idx : Index) (ord : Nat),
      ∃ idx', addWords false idx ord i ws = some idx'
        ∧ (∀ w old, dictGet idx w = some old →
              dictGet idx' w = some (old ++ occEntriesFrom ord i ws w))
        ∧ (∀ w, dictGet idx w = none →
              dictGet idx' w = if occEntriesFrom ord i ws w = [] then none
                else some (occEntriesFrom ord i ws w)) := by
  induction ws with
  | nil =>
    intro i idx ord
    refine ⟨idx, rfl, ?_, ?_⟩
    · intro w old hold
      rw [hold]
      simp [occEntriesFrom]
    · intro w hnone
      simp [occEntriesFrom, hnone]
  | cons w0 ws ih =>
    intro i idx ord
    obtain ⟨idx', hrun, ha, hb⟩ :=
      ih (i + 1) (dictAppendEntry idx w0 (Pdoc.int ord, Plist.posInt i)) ord
    refine ⟨idx', ?_, ?_, ?_⟩
    · show addWords false idx ord i (w0 :: ws) = some idx'
      rw [addWords]
      show (match addWord false idx ord i w0 with
        | none => none
        | some idx1 => addWords false idx1 ord (i + 1) ws) = some idx'
      rw [show addWord false idx ord i w0
          = some (dictAppendEntry idx w0 (Pdoc.int ord, Plist.posInt i)) from rfl]
      exact hrun
    · intro w old hold
      by_cases hw : w0 = w
      · subst hw
        have hmid : dictGet (dictAppendEntry idx w0 (Pdoc.int ord, Plist.posInt i)) w0
            = some (old ++ [(Pdoc.int ord, Plist.posInt i)]) := by
          rw [dictGet_dictAppendEntry, if_pos rfl, hold]
          rfl
        have := ha w0 _ hmid
        rw [this]
        rw [occEntriesFrom, if_pos rfl]
        simp
      · have hmid : dictGet (dictAppendEntry idx w0 (Pdoc.int ord, Plist.posInt i)) w
            = some old := by
          rw [dictGet_dictAppendEntry, if_neg hw, hold]
        have := ha w _ hmid
        rw [this]
        rw [occEntriesFrom, if_neg hw]
    · intro w hnone
      by_cases hw : w0 = w
      · subst hw
        have hmid : dictGet (dictAppendEntry idx w0 (Pdoc.int ord, Plist.posInt i)) w0
            = some ([(Pdoc.int ord, Plist.posInt i)]) := by
          rw [dictGet_dictAppendEntry, if_pos rfl, hnone]
          rfl
        have := ha w0 _ hmid
        rw [this]
        rw [occEntriesFrom, if_pos rfl]
        simp
      · have hmid : dictGet (dictAppendEntry idx w0 (Pdoc.int ord, Plist.posInt i)) w
            = none := by
          rw [dictGet_dictAppendEntry, if_neg hw, hnone]
        have := hb w hmid
        rw [this]
        rw [occEntriesFrom, if_neg hw]

/-- C7 (amended): the uncompressed postings table is positional, not
membership-only: after ingesting a document into a fresh
`use_compression=False` index, the postings stored for a term `w` are
exactly one `(ordinal, position)` pair per occurrence of `w` in the
tokenized text (so a term is present in the table iff it occurs at least
once — that direction of the claim holds — but occurrence counts and
positions are retained). -/
theorem add_document_uncompressed_postings (d t w : String) (st : IndexState)
    (h : add_document (emptyIndex false) d t = some st) :
    dictGet st.index w
      = if occEntriesFrom 0 0 (tokenize t) w = [] then none
        else some (occEntriesFrom 0 0 (tokenize t) w) := by
  rw [add_document] at h
  rw [if_neg (fun hc => nomatch hc : ¬dictContains (emptyIndex false).doc_ids d = true)] at h
  obtain ⟨idx', hrun, _, hb⟩ := addWords_false_get (tokenize t) 0 [] 0
  have hempty : (emptyIndex false).index = ([] : Index) := rfl
  rw [show (emptyIndex false).use_compression = false from rfl,
    show (emptyIndex false).index = ([] : Index) from rfl,
    show (emptyIndex false).doc_counter = 0 from rfl, hrun] at h
  injection h with h
  rw [← h]
  exact hb w rfl

/-- Witness for the amended C7: text `"x y x"`, term `"x"`. -/
theorem add_document_uncompressed_postings_witness :
    dictGet repeatedTermState.index "x"
      = if occEntriesFrom 0 0 (tokenize "x y x") "x" = [] then none
        else some (occEntriesFrom 0 0 (tokenize "x y x") "x") :=
  add_document_uncompressed_postings "a" "x y x" "x" repeatedTermState (by rfl)

theorem mem_dictAppendEntry (idx : Index) (key : String) (e : Posting) :
    ∀ tps ∈ dictAppendEntry idx key e, ∀ p ∈ tps.2,
      (∃ tps0 ∈ idx, p ∈ tps0.2) ∨ p = e := by
  induction idx with
  | nil =>
    intro tps htps p hp
    simp [dictAppendEntry] at htps
    subst htps
    simp at hp
    exact Or.inr hp
  | cons q rest ih =>
    obtain ⟨k, l⟩ := q
    intro tps htps p hp
    by_cases hk : k = key
    · rw [dictAppendEntry, if_pos hk] at htps
      rcases List.mem_cons.mp htps with heq | hmem
      · subst heq
        rcases List.mem_append.mp hp with hl | he
        · exact Or.inl ⟨(k, l), List.mem_cons_self _ _, hl⟩
        · exact Or.inr (List.mem_singleton.mp he)
      · exact Or.inl ⟨tps, List.mem_cons_of_mem _ hmem, hp⟩
    · rw [dictAppendEntry, if_neg hk] at htps
      rcases List.mem_cons.mp htps with heq | hmem
      · subst heq
        exact Or.inl ⟨(k, l), List.mem_cons_self _ _, hp⟩
      · rcases ih tps hmem p hp with ⟨tps0, h0, hp0⟩ | he
        · exact Or.inl ⟨tps0, List.mem_cons_of_mem _ h0, hp0⟩
        · exact Or.inr he

theorem mem_dictSet {α : Type} (m : List (String × α)) (key : String) (v : α) :
    ∀ x ∈ dictSet m key v, x.2 = v ∨ x ∈ m := by
  induction m with
  | nil =>
    intro x hx
    simp [dictSet] at hx
    subst hx
    exact Or.inl rfl
  | cons q rest ih =>
    obtain ⟨k, w⟩ := q
    intro x hx
    by_cases hk : k = key
    · rw [dictSet, if_pos hk] at hx
      rcases List.mem_cons.mp hx with heq | hmem
      · subst heq
        exact Or.inl rfl
      · exact Or.inr (List.mem_cons_of_mem _ hmem)
    · rw [dictSet, if_neg hk] at hx
      rcases List.mem_cons.mp hx with heq | hmem
      · subst heq
        exact Or.inr (List.mem_cons_self _ _)
      · rcases ih x hmem with hv | hm
        · exact Or.inl hv
        · exact Or.inr (List.mem_cons_of_mem _ hm)

theorem rawBelow_mono (idx : Index) (c c' : Nat) (hcc : c ≤ c')
    (h : RawBelow idx c) : RawBelow idx c' := by
  intro tps htps p hp
  obtain ⟨o, ho, hlt⟩ := h tps htps p hp
  exact ⟨o, ho, Nat.lt_of_lt_of_le hlt hcc⟩

theorem rawBelow_dictAppendEntry (idx : Index) (key : String) (e : Posting) (c : Nat)
    (h : RawBelow idx c) (he : ∃ o, e.1 = Pdoc.int o ∧ o < c) :
    RawBelow (dictAppendEntry idx key e) c := by
  intro tps htps p hp
  rcases mem_dictAppendEntry idx key e tps htps p hp with ⟨tps0, h0, hp0⟩ | heq
  · exact h tps0 h0 p hp0
  · rw [heq]
    exact he

theorem rawBelow_addWord (uc : Bool) (idx : Index) (ord pos : Nat) (w : String)
    (idx' : Index) (c : Nat) (h : RawBelow idx c) (hord : ord < c)
    (hrun : addWord uc idx ord pos w = some idx') : RawBelow idx' c := by
  cases uc with
  | false =>
    have hrun' : some (dictAppendEntry idx w (Pdoc.int ord, Plist.posInt pos)) = some idx' :=
      hrun
    injection hrun' with hrun'
    rw [← hrun']
    exact rawBelow_dictAppendEntry idx w _ c h ⟨ord, rfl, hord⟩
  | true =>
    cases hget : dictGet idx w with
    | none =>
      rw [addWord, if_pos rfl] at hrun
      simp only [hget] at hrun
      injection hrun with hrun
      rw [← hrun]
      exact rawBelow_dictAppendEntry idx w _ c h ⟨ord, rfl, hord⟩
    | some postings =>
      rw [addWord, if_pos rfl] at hrun
      simp only [hget] at hrun
      cases hlast : postings.getLast? with
      | none =>
        simp only [hlast] at hrun
        cases hrun
      | some lastP =>
        obtain ⟨lastDoc, positions⟩ := lastP
        simp only [hlast] at hrun
        by_cases hld : lastDoc = Pdoc.int ord
        · rw [if_pos hld] at hrun
          cases positions with
          | posList ps =>
            injection hrun with hrun
            rw [← hrun]
            intro tps htps p hp
            rcases mem_dictSet idx w _ tps htps with hv | hm
            · rw [hv] at hp
              rcases List.mem_append.mp hp with hdl | hnew
              · have hpmem : p ∈ postings := List.dropLast_subset _ hdl
                exact h (w, postings) (dictGet_mem idx w postings hget) p hpmem
              · rw [List.mem_singleton.mp hnew]
                exact ⟨ord, by rw [hld], hord⟩
            · exact h tps hm p hp
          | posInt q => cases hrun
          | bytes s => cases hrun
        · rw [if_neg hld] at hrun
          injection hrun with hrun
          rw [← hrun]
          exact rawBelow_dictAppendEntry idx w _ c h ⟨ord, rfl, hord⟩

theorem rawBelow_addWords (uc : Bool) (ws : List String) :
    ∀ (idx : Index) (ord pos : Nat) (idx' : Index) (c : Nat),
      RawBelow idx c → ord < c →
      addWords uc idx ord pos ws = some idx' → RawBelow idx' c := by
  induction ws with
  | nil =>
    intro idx ord pos idx' c h _ hrun
    injection hrun with hrun
    rwa [← hrun]
  | cons w ws ih =>
    intro idx ord pos idx' c h hord hrun
    rw [addWords] at hrun
    cases hw : addWord uc idx ord pos w with
    | none => rw [hw] at hrun; cases hrun
    | some idx1 =>
      rw [hw] at hrun
      exact ih idx1 ord (pos + 1) idx' c (rawBelow_addWord uc idx ord pos w idx1 c h hord hw) hord hrun

theorem rawBelow_add_document (st : IndexState) (d t : String) (st' : IndexState)
    (h : RawBelow st.index st.doc_counter) (hrun : add_document st d t = some st') :
    RawBelow st'.index st'.doc_counter := by
  rw [add_document] at hrun
  by_cases hc : dictContains st.doc_ids d = true
  · rw [if_pos hc] at hrun
    injection hrun with hrun
    rwa [← hrun]
  · rw [if_neg hc] at hrun
    cases haw : addWords st.use_compression st.index st.doc_counter 0 (tokenize t) with
    | none => rw [haw] at hrun; cases hrun
    | some idx' =>
      rw [haw] at hrun
      injection hrun with hrun
      rw [← hrun]
      show RawBelow idx' (st.doc_counter + 1)
      exact rawBelow_addWords st.use_compression (tokenize t) st.index st.doc_counter 0 idx'
        (st.doc_counter + 1)
        (rawBelow_mono st.index st.doc_counter (st.doc_counter + 1) (Nat.le_succ _) h)
        (Nat.lt_succ_self _) haw

theorem rawBelow_ingestAll (corpus : List (String × String)) :
    ∀ st st', RawBelow st.index st.doc_counter → ingestAll st corpus = some st' →
      RawBelow st'.index st'.doc_counter := by
  induction corpus with
  | nil =>
    intro st st' h hrun
    injection hrun with hrun
    rwa [← hrun]
  | cons p rest ih =>
    obtain ⟨d, t⟩ := p
    intro st st' h hrun
    rw [ingestAll] at hrun
    cases hadd : add_document st d t with
    | none => rw [hadd] at hrun; cases hrun
    | some st1 =>
      rw [hadd] at hrun
      exact ih st1 st' (rawBelow_add_document st d t st1 h hadd) hrun

theorem rawBelow_buildIndex (uc : Bool) (corpus : List (String × String))
    (st : IndexState) (h : buildIndex uc corpus = some st) :
    RawBelow st.index st.doc_counter :=
  rawBelow_ingestAll corpus (emptyIndex uc) st (fun _ htps => nomatch htps) h

theorem decompress_docs_eq_prev (ps : List Posting) :
    ∀ (prev : Nat) (dec : List Posting) (c : Nat),
      (∀ p ∈ ps, ∃ o, p.1 = Pdoc.int o ∧ o < c) →
      decompressPostings ps prev = some dec →
      ∀ q ∈ dec, q.1 = Pdoc.int prev := by
  induction ps with
  | nil =>
    intro prev dec c _ hrun q hq
    injection hrun with hrun
    rw [← hrun] at hq
    cases hq
  | cons p rest ih =>
    obtain ⟨ed, ep⟩ := p
    intro prev dec c hinv hrun
    obtain ⟨o, ho, _⟩ := hinv (ed, ep) (List.mem_cons_self _ _)
    have ho' : ed = Pdoc.int o := ho
    subst ho'
    cases o with
    | succ o' =>
      rw [decompressPostings] at hrun
      simp only [decodeDocVal] at hrun
      cases hrun
    | zero =>
      rw [decompressPostings] at hrun
      simp only [decodeDocVal] at hrun
      cases htail : decompressPostings rest (prev + 0) with
      | none =>
        simp only [htail] at hrun
        cases hrun
      | some tail =>
        simp only [htail] at hrun
        injection hrun with hrun
        intro q hq
        rw [← hrun] at hq
        rcases List.mem_cons.mp hq with heq | hmem
        · rw [heq]
          show Pdoc.int (prev + 0) = Pdoc.int prev
          rw [Nat.add_zero]
        · have := ih (prev + 0) tail c
            (fun p hp => hinv p (List.mem_cons_of_mem _ hp)) htail q hmem
          simpa using this

theorem counter_not_in_gathered (st : IndexState) (terms : List String)
    (L : List Posting) (Ls : List (List Posting)) (c : Nat)
    (hinv : RawBelow st.index c)
    (h : gatherPostings st terms = some (some (L :: Ls))) :
    Pdoc.int c ∉ getDocIds L := by
  cases terms with
  | nil =>
    rw [gatherPostings] at h
    injection h with h
    injection h with h
    cases h
  | cons t rest =>
    rw [gatherPostings] at h
    cases hget : dictGet st.index t with
    | none =>
      simp only [hget] at h
      injection h with h
      cases h
    | some postings =>
      simp only [hget] at h
      have hentries : ∀ p ∈ postings, ∃ o, p.1 = Pdoc.int o ∧ o < c :=
        hinv (t, postings) (dictGet_mem st.index t postings hget)
      split at h
      · -- compression-mode branch
        cases hdec : decompressPostings postings 0 with
        | none =>
          simp only [hdec] at h
          cases h
        | some dec =>
          simp only [hdec] at h
          cases hrest : gatherPostings st rest with
          | none => simp only [hrest] at h; cases h
          | some inner =>
            simp only [hrest] at h
            cases inner with
            | none =>
              injection h with h
              cases h
            | some ls =>
              injection h with h
              injection h with h
              injection h with hL hLs
              subst hL
              intro hmem
              obtain ⟨q, hq, hq1⟩ := List.mem_map.mp hmem
              have hq0 : q.1 = Pdoc.int 0 :=
                decompress_docs_eq_prev postings 0 dec c hentries hdec q hq
              rw [hq0] at hq1
              injection hq1 with hc0
              have hcpos : 0 < c := by
                cases postings with
                | nil =>
                  cases dec with
                  | nil => cases hq
                  | cons a as =>
                    rw [decompressPostings] at hdec
                    cases hdec
                | cons p0 ps0 =>
                  obtain ⟨o, _, hlt⟩ := hentries p0 (List.mem_cons_self _ _)
                  omega
              omega
      · -- uncompressed branch
        cases hrest : gatherPostings st rest with
        | none => simp only [hrest] at h; cases h
        | some inner =>
          simp only [hrest] at h
          cases inner with
          | none =>
            injection h with h
            cases h
          | some ls =>
            injection h with h
            injection h with h
            injection h with hL hLs
            subst hL
            intro hmem
            obtain ⟨q, hq, hq1⟩ := List.mem_map.mp hmem
            obtain ⟨o, ho, hlt⟩ := hentries q hq
            rw [ho] at hq1
            injection hq1 with hc0
            omega

theorem mem_interFold (ls : List (List Posting)) :
    ∀ (acc : List Pdoc) (x : Pdoc), x ∈ interFold acc ls → x ∈ acc := by
  induction ls with
  | nil =>
    intro acc x hx
    exact hx
  | cons l ls ih =>
    intro acc x hx
    rw [interFold] at hx
    by_cases hemp : (acc.filter (fun y => decide (y ∈ getDocIds l))).isEmpty
    · rw [if_pos hemp] at hx
      exact List.mem_of_mem_filter hx
    · rw [if_neg hemp] at hx
      exact List.mem_of_mem_filter (ih _ x hx)

theorem search_cons (st : IndexState) (q : String) (t0 : String) (ts : List String)
    (hterm : tokenize q = t0 :: ts) :
    search st q
      = match gatherPostings st (t0 :: ts) with
        | none => none
        | some none => some []
        | some (some []) => some []
        | some (some (first :: rest)) =>
          some ((st.doc_ids.filter
            (fun pr => decide (Pdoc.int pr.2 ∈ interFold (getDocIds first) rest))).map
              Prod.fst) := by
  simp only [search, hterm, List.isEmpty_cons]
  rfl

/-- C10: adding a not-yet-registered document whose text tokenizes to
nothing (empty or whitespace-only) to an index built by prior ingestion
still registers the id and consumes the next ordinal — the registry grows
by one and the counter advances — while the postings table is unchanged,
and the new document is never returned by a search whose query tokenizes
to a non-empty sequence. -/
theorem add_document_empty_tokens (uc : Bool) (corpus : List (String × String))
    (st : IndexState) (hbuild : buildIndex uc corpus = some st)
    (d t : String) (hd : dictContains st.doc_ids d = false) (ht : tokenize t = []) :
    ∃ st', add_document st d t = some st'
      ∧ st'.index = st.index
      ∧ st'.doc_ids = st.doc_ids ++ [(d, st.doc_counter)]
      ∧ st'.doc_counter = st.doc_counter + 1
      ∧ st'.doc_ids.length = st.doc_ids.length + 1
      ∧ ∀ q res, tokenize q ≠ [] → search st' q = some res → d ∉ res := by
  have hadd : add_document st d t
      = some { index := st.index, doc_ids := dictSet st.doc_ids d st.doc_counter,
               doc_counter := st.doc_counter + 1,
               use_compression := st.use_compression } := by
    rw [add_document, if_neg (by simp [hd]), ht]
    rfl
  have hids : dictSet st.doc_ids d st.doc_counter = st.doc_ids ++ [(d, st.doc_counter)] :=
    dictSet_of_not_contains st.doc_ids d st.doc_counter hd
  refine ⟨_, hadd, rfl, ?_, rfl, ?_, ?_⟩
  · exact hids
  · show (dictSet st.doc_ids d st.doc_counter).length = st.doc_ids.length + 1
    rw [hids, List.length_append]
    rfl
  · intro q res hq hres
    cases hterm : tokenize q with
    | nil => exact absurd hterm hq
    | cons t0 ts =>
      rw [search_cons _ q t0 ts hterm] at hres
      have hinv : RawBelow st.index st.doc_counter :=
        rawBelow_buildIndex uc corpus st hbuild
      cases hg : gatherPostings
          { index := st.index, doc_ids := dictSet st.doc_ids d st.doc_counter,
            doc_counter := st.doc_counter + 1,
            use_compression := st.use_compression } (t0 :: ts) with
      | none =>
        simp only [hg] at hres
        cases hres
      | some inner =>
        simp only [hg] at hres
        cases inner with
        | none =>
          injection hres with hres
          rw [← hres]
          simp
        | some ls =>
          cases ls with
          | nil =>
            injection hres with hres
            rw [← hres]
            simp
          | cons L Ls =>
            injection hres with hres
            intro hmem
            rw [← hres] at hmem
            obtain ⟨pr, hpr, hprd⟩ := List.mem_map.mp hmem
            have hpr' := List.mem_filter.mp hpr
            obtain ⟨hprmem, hprdec⟩ := hpr'
            have hprres : Pdoc.int pr.2 ∈ interFold (getDocIds L) Ls :=
              of_decide_eq_true hprdec
            have hprmem' : pr ∈ st.doc_ids ++ [(d, st.doc_counter)] := by
              rw [← hids]
              exact hprmem
            rcases List.mem_append.mp hprmem' with hold | hnew
            · have : (d, pr.2) ∉ st.doc_ids :=
                not_mem_of_dictContains_false st.doc_ids d hd pr.2
              apply this
              have hpreq : pr = (d, pr.2) := by
                ext
                · rw [hprd]
                · rfl
              rwa [← hpreq]
            · have hpreq : pr = (d, st.doc_counter) := List.mem_singleton.mp hnew
              have hcres : Pdoc.int st.doc_counter ∈ interFold (getDocIds L) Ls := by
                rw [hpreq] at hprres
                exact hprres
              have hcL : Pdoc.int st.doc_counter ∈ getDocIds L :=
                mem_interFold Ls (getDocIds L) _ hcres
              exact counter_not_in_gathered
                { index := st.index, doc_ids := dictSet st.doc_ids d st.doc_counter,
                  doc_counter := st.doc_counter + 1,
                  use_compression := st.use_compression }
                (t0 :: ts) L Ls st.doc_counter hinv hg hcL

/-- Witness for C10: the prior corpus is one document `a` containing `x`;
the new document `b` has whitespace-only text. -/
theorem add_document_empty_tokens_witness :
    ∃ st', add_document oneDocState "b" " " = some st'
      ∧ st'.index = oneDocState.index
      ∧ st'.doc_ids = oneDocState.doc_ids ++ [("b", oneDocState.doc_counter)]
      ∧ st'.doc_counter = oneDocState.doc_counter + 1
      ∧ st'.doc_ids.length = oneDocState.doc_ids.length + 1
      ∧ ∀ q res, tokenize q ≠ [] → search st' q = some res → "b" ∉ res :=
  add_document_empty_tokens true [("a", "x")] oneDocState (by rfl) "b" " "
    (by rfl) (by rfl)

end Indexer

